import Mathlib

/-!
Verification development for the segmented parallel transcription pipeline in
src/gui/worker_thread.py: the single-file worker (TranscriptionWorker.run) and the
batch worker (BatchTranscriptionWorker) with its helpers _process_single_file,
_transcribe_segments, _save_output_files and _cleanup.

Modelling conventions.
* The external collaborators (decoder, VAD, remote ASR) are represented by the values
  they return: a FileWorld record supplies the decoder output (total sample count),
  the VAD output (a list of sample ranges) and the pool outcomes, already arranged in
  the order concurrent.futures.as_completed yields them.
* PCM buffers, file paths, Qt signal plumbing and progress-percentage messages are not
  observable in any claim and are left out; the error, segment-completed, finished,
  file-started, file-error and batch-finished payloads are modelled exactly.
* The cancellation flag is a monotone token polled at discrete checkpoints; a schedule
  cancel : Nat -> Bool gives the value read by the n-th poll of the run (the source
  polls at the lines guarded by "if self._is_cancelled").
* Machine floats (duration, start/end seconds) are modelled as exact rationals.
-/

/-- Outcome of one remote ASR call, `qwen3asr.asr(...)`: either the pair
(language, recog_text) or the message of the exception raised by `future.result()`. -/
abbrev AsrOutcome := Except String (String × String)

/-- Completion-ordered settlements of the pool: (segment index, outcome) pairs in the
order `concurrent.futures.as_completed(future_dict)` yields them. -/
abbrev Completions := List (Nat × AsrOutcome)

/-- One audio segment as (start, end) sample offsets; the PCM payload of the
`wav_list` triples is dropped because nothing observable depends on it. -/
abbrev WavSeg := Nat × Nat

/-- Decoded duration in seconds, `len(wav) / WAV_SAMPLE_RATE` (worker_thread.py line 81). -/
def duration (wavLen rate : Nat) : ℚ := (wavLen : ℚ) / (rate : ℚ)

/-- The segmentation stage (lines 89-97 and 326-332): when `duration >= 180` the VAD
result is used (its load failure propagates as an exception), otherwise the whole
signal becomes the single segment `(0, len(wav), wav)`. The Bool records whether the
VAD model was loaded and invoked. -/
def segStage (vad : Except String (List WavSeg)) (wavLen rate : Nat) :
    Except String (List WavSeg × Bool) :=
  if (180 : ℚ) ≤ duration wavLen rate then
    Except.map (fun segs => (segs, true)) vad
  else
    Except.ok ([(0, wavLen)], false)

/-- First-occurrence key sequence of `collections.Counter(languages)`: Python dicts
keep insertion order, so the keys appear in order of first occurrence. -/
def counterKeys : List String → List String
  | [] => []
  | x :: xs => x :: counterKeys (xs.filter (fun y => y ≠ x))
termination_by l => l.length
decreasing_by
  simp only [List.length_cons]
  exact Nat.lt_succ_of_le (List.length_filter_le _ _)

/-- `Counter(languages).most_common(1)[0][0] if languages else "Unknown"`
(lines 162 and 404): the most frequent label, ties resolved in favour of the key
inserted first (Counter iteration order), i.e. the label whose first occurrence in
`languages` comes earliest — and `languages` is filled in completion order. -/
def dominantLanguage (languages : List String) : String :=
  match counterKeys languages with
  | [] => "Unknown"
  | k :: ks =>
      ks.foldl
        (fun best y => if languages.count best < languages.count y then y else best) k

/-- Comparison used by `results.sort(key=lambda x: x[0])`. -/
def idxLe (a b : Nat × String) : Prop := a.1 ≤ b.1

instance : DecidableRel idxLe := fun a b => Nat.decLe a.1 b.1

instance : IsTotal (Nat × String) idxLe := ⟨fun a b => Nat.le_total a.1 b.1⟩

instance : IsTrans (Nat × String) idxLe := ⟨fun _ _ _ h h' => Nat.le_trans h h'⟩

/-- `results.sort(key=lambda x: x[0])` (lines 160 and 402): a stable sort on the
segment index carried in each (idx, recog_text) pair. -/
def sortResults (l : List (Nat × String)) : List (Nat × String) :=
  List.insertionSort idxLe l

/-- `full_text = " ".join(text for _, text in results)` after the sort
(lines 161 and 403). -/
def fullTextOf (results : List (Nat × String)) : String :=
  String.intercalate (" ") ((sortResults results).map Prod.snd)

/-- One entry of the `segments` list handed to the finished signal and the SRT
writer: the dict {"index", "start", "end", "text"}. -/
structure Seg where
  index : Nat
  start : ℚ
  stop : ℚ
  text : String
deriving DecidableEq, Repr

/-- The loop `for idx, (_, text) in enumerate(results)` (lines 167-176 and 409-418).
Note the source enumerates positions of the sorted results list: the position `idx`
is stored as the index and used to look up `wav_list[idx]`, while the real segment
index inside each results tuple is discarded by the `_` pattern. -/
def buildSegments (wavList : List WavSeg) (rate : Nat)
    (sorted : List (Nat × String)) : List Seg :=
  sorted.enum.map fun p =>
    let w := wavList.getD p.1 (0, 0)
    { index := p.1
      start := (w.1 : ℚ) / (rate : ℚ)
      stop := (w.2 : ℚ) / (rate : ℚ)
      text := p.2.2 }

/-- Content written to the `.txt` output (lines 186-189 and 451-455): the detected
language line followed by the full-text line. -/
def txtContent (language fullText : String) : String :=
  language ++ "\n" ++ fullText ++ "\n"

/-- Modelled from the spec: the Subtitle value of the external `srt` library (not part
of this repository) — cue number, start and end as a whole number of microseconds
(the resolution of datetime.timedelta), and the cue text. -/
structure Subtitle where
  index : Nat
  startTd : Nat
  endTd : Nat
  content : String
deriving DecidableEq, Repr

/-- Two-digit zero padding, `%02d`. -/
def pad2 (n : Nat) : String :=
  if n < 10 then "0" ++ toString n else toString n

/-- Three-digit zero padding, `%03d`. -/
def pad3 (n : Nat) : String :=
  if n < 10 then "00" ++ toString n
  else if n < 100 then "0" ++ toString n
  else toString n

/-- Modelled from the spec: SRT timestamp rendering `HH:MM:SS,mmm` of a timedelta
given as whole microseconds (spec 4.6/6: "start/end as HH:MM:SS,mmm"). -/
def srtTimestamp (micros : Nat) : String :=
  let totalSecs := micros / 1000000
  let msecs := micros % 1000000 / 1000
  pad2 (totalSecs / 3600) ++ (":") ++ pad2 (totalSecs % 3600 / 60) ++ (":")
    ++ pad2 (totalSecs % 60) ++ (",") ++ pad3 msecs

/-- Modelled from the spec: one rendered SRT cue block — number line, timestamp line,
text body, blank separator ("standard subtitle format", spec 4.6). -/
def subtitleBlock (s : Subtitle) : String :=
  toString s.index ++ ("\n") ++ srtTimestamp s.startTd ++ (" --> ")
    ++ srtTimestamp s.endTd ++ ("\n") ++ s.content ++ ("\n\n")

/-- Modelled from the spec: the renumbering pass of `srt.compose`, replacing each
stored cue number by consecutive values starting at n. -/
def composeCuesFrom (n : Nat) : List Subtitle → List Subtitle
  | [] => []
  | s :: rest => { s with index := n } :: composeCuesFrom (n + 1) rest

/-- Modelled from the spec: `srt.compose` renumbers the cues sequentially starting
at 1 in the order given (spec 4.6: "one subtitle cue per segment in index order with
1-based sequential numbering"); the index stored on each input Subtitle is replaced. -/
def composeCues (subs : List Subtitle) : List Subtitle :=
  composeCuesFrom 1 subs

/-- Modelled from the spec: `srt.compose(subtitles)` — the concatenation of the
renumbered cue blocks. -/
def composeSrt (subs : List Subtitle) : String :=
  String.join ((composeCues subs).map subtitleBlock)

/-- `timedelta(seconds=q)` as a whole number of microseconds (the rounding of the
sub-microsecond remainder is immaterial to every stated property). -/
def secondsToMicros (q : ℚ) : Nat := (q * 1000000).floor.toNat

/-- The loop building `srt.Subtitle(index=seg["index"], start=..., end=..., content=...)`
values (lines 194-203 and 460-469): the 0-based stored index is passed through. -/
def mkSubtitles (segs : List Seg) : List Subtitle :=
  segs.map fun s =>
    { index := s.index
      startTd := secondsToMicros s.start
      endTd := secondsToMicros s.stop
      content := s.text }

/-- Worker configuration: credential string, whether DASHSCOPE_API_KEY is present in
the environment, the fixed decoder sample rate, and the SRT toggle. -/
structure Cfg where
  apiKey : String
  envHasKey : Bool
  rate : Nat
  saveSrt : Bool

/-- External world for one file: decoder result (total sample count or the decode
exception message), VAD result, and the completion-ordered pool outcomes. -/
structure FileWorld where
  decode : Except String Nat
  vad : Except String (List WavSeg)
  completions : Completions

/-- The schedule that never sets the cancellation token. -/
def neverCancel : Nat → Bool := fun _ => false

/-- A monotone token that is set from the t-th poll onwards: the general shape of a
flag that is set once and never reset. -/
def stepCancel (t : Nat) : Nat → Bool := fun i => decide (t ≤ i)

/-- Accumulator of the single-file drain loop (lines 121-157): results and languages
in completion order, the error.emit payloads, and the segment_completed payloads. -/
structure SingleDrainSt where
  results : List (Nat × String)
  languages : List String
  errors : List String
  segmentEvents : List (Nat × String × ℚ × ℚ)
deriving DecidableEq, Repr

/-- Result of the single-file drain loop: final accumulator, the next poll ordinal,
and whether cancellation was observed (line 136: shutdown, cleanup, return). -/
structure SingleDrainRes where
  st : SingleDrainSt
  cpNext : Nat
  cancelled : Bool
deriving Repr

/-- `for future in concurrent.futures.as_completed(future_dict)` of
TranscriptionWorker.run (lines 135-157): one cancellation poll per completed task;
a successful task appends to results/languages and emits segment_completed with
`wav_list[idx]` start/end; a failed task only emits "Segment {idx} failed: {e}". -/
def singleDrainGo (cancel : Nat → Bool) (wavList : List WavSeg) (rate : Nat) :
    List (Nat × AsrOutcome) → Nat → SingleDrainSt → SingleDrainRes
  | [], cp, st => ⟨st, cp, false⟩
  | c :: rest, cp, st =>
    if cancel cp then ⟨st, cp + 1, true⟩
    else
      match c.2 with
      | .ok lt =>
          let w := wavList.getD c.1 (0, 0)
          singleDrainGo cancel wavList rate rest (cp + 1)
            { st with
              results := st.results ++ [(c.1, lt.2)]
              languages := st.languages ++ [lt.1]
              segmentEvents :=
                st.segmentEvents ++ [(c.1, lt.2, (w.1 : ℚ) / (rate : ℚ), (w.2 : ℚ) / (rate : ℚ))] }
      | .error e =>
          singleDrainGo cancel wavList rate rest (cp + 1)
            { st with
              errors := st.errors ++ ["Segment " ++ toString c.1 ++ " failed: " ++ e] }

/-- Observable outcome of TranscriptionWorker.run: error.emit payloads,
segment_completed payloads, written .txt and .srt contents, the
finished_transcription payload, and the state of the per-file temp directory. -/
structure SingleOut where
  errors : List String
  segmentEvents : List (Nat × String × ℚ × ℚ)
  txt : Option String
  srt : Option String
  finished : Option (String × String × List Seg)
  dirCreated : Bool
  dirExists : Bool
deriving DecidableEq, Repr

/-- A SingleOut with nothing emitted and no directory created. -/
def silentOut : SingleOut :=
  { errors := [], segmentEvents := [], txt := none, srt := none, finished := none
    dirCreated := false, dirExists := false }

/-- TranscriptionWorker.run (lines 63-225). Control flow in order: credential check
(lines 66-71), poll (76), decode (80), poll (85), segmentation (88-97), poll (99),
staging of segment files into save_dir (102-111), poll (115, with cleanup), the drain
loop (128-157), assembly (159-176), output writing (178-205), cleanup (208) and the
finished signal (212). Decoder/VAD exceptions reach the catch-all at line 214, which
emits "Transcription failed: {e}" without any cleanup. Drain polls start at ordinal 4. -/
def singleRun (cfg : Cfg) (w : FileWorld) (cancel : Nat → Bool) : SingleOut :=
  if cfg.apiKey = "" ∧ cfg.envHasKey = false then
    { silentOut with
      errors := ["No API key provided. Please set DASHSCOPE_API_KEY or enter it in settings."] }
  else if cancel 0 then silentOut
  else
    match w.decode with
    | .error e => { silentOut with errors := ["Transcription failed: " ++ e] }
    | .ok wavLen =>
      if cancel 1 then silentOut
      else
        match segStage w.vad wavLen cfg.rate with
        | .error e => { silentOut with errors := ["Transcription failed: " ++ e] }
        | .ok (wavList, _) =>
          if cancel 2 then silentOut
          else if cancel 3 then
            { silentOut with dirCreated := true, dirExists := false }
          else
            let d := singleDrainGo cancel wavList cfg.rate w.completions 4 ⟨[], [], [], []⟩
            if d.cancelled then
              { errors := d.st.errors, segmentEvents := d.st.segmentEvents
                txt := none, srt := none, finished := none
                dirCreated := true, dirExists := false }
            else
              let sorted := sortResults d.st.results
              let fullText := String.intercalate (" ") (sorted.map Prod.snd)
              let language := dominantLanguage d.st.languages
              let segs := buildSegments wavList cfg.rate sorted
              { errors := d.st.errors, segmentEvents := d.st.segmentEvents
                txt := some (txtContent language fullText)
                srt := if cfg.saveSrt then some (composeSrt (mkSubtitles segs)) else none
                finished := some (fullText, language, segs)
                dirCreated := true, dirExists := false }

/-- Structured provenance of the exceptions raised inside _process_single_file; the
orchestrator only observes `str(e)`, exposed by BErr.msg. -/
inductive BErr
  | auth
  | cancelled
  | decode (msg : String)
  | vadLoad (msg : String)
  | segment (msg : String)
deriving DecidableEq, Repr

/-- `str(e)` of the corresponding Python exception. -/
def BErr.msg : BErr → String
  | .auth => "No API key provided"
  | .cancelled => "Cancelled"
  | .decode m => m
  | .vadLoad m => m
  | .segment m => m

/-- Value returned by a successful _process_single_file run, together with the output
files it wrote. -/
structure FileSuccess where
  fullText : String
  language : String
  segments : List Seg
  txt : String
  srt : Option String
deriving DecidableEq, Repr

/-- Result of the batch drain loop (lines 376-399): either the accumulated
(results, languages) or the raised exception; plus the next poll ordinal. -/
structure BatchDrainRes where
  result : Except BErr (List (Nat × String) × List String)
  cpNext : Nat
deriving Repr

/-- `for future in concurrent.futures.as_completed(future_dict)` of
_transcribe_segments (lines 383-399): one cancellation poll per completed task
(raising InterruptedError after cleanup); `future.result()` is NOT wrapped in
try/except here, so the first failed segment in completion order raises out. -/
def drainGo (cancel : Nat → Bool) :
    List (Nat × AsrOutcome) → Nat → List (Nat × String) → List String → BatchDrainRes
  | [], cp, res, langs => ⟨.ok (res, langs), cp⟩
  | c :: rest, cp, res, langs =>
    if cancel cp then ⟨.error .cancelled, cp + 1⟩
    else
      match c.2 with
      | .error e => ⟨.error (.segment e), cp + 1⟩
      | .ok lt => drainGo cancel rest (cp + 1) (res ++ [(c.1, lt.2)]) (langs ++ [lt.1])

/-- Outcome of _process_single_file: the returned dict or the raised exception,
whether the temp directory was created, whether it still exists afterwards, and the
next poll ordinal. -/
structure ProcRes where
  result : Except BErr FileSuccess
  dirCreated : Bool
  dirExists : Bool
  cpNext : Nat
deriving Repr

/-- _transcribe_segments (lines 359-435): drain, then sort/join/count assembly,
_save_output_files (with the `if self.save_srt and segments:` guard of line 458),
cleanup, and the returned dict. A cancellation observed in the drain cleans up before
raising (lines 385-387); a segment exception propagates with NO cleanup. -/
def transcribeSegments (cfg : Cfg) (cancel : Nat → Bool) (wavList : List WavSeg)
    (comps : Completions) (cp : Nat) : ProcRes :=
  match drainGo cancel comps cp [] [] with
  | ⟨.error e, cpN⟩ =>
      { result := .error e, dirCreated := true
        dirExists := match e with | .cancelled => false | _ => true
        cpNext := cpN }
  | ⟨.ok (res, langs), cpN⟩ =>
      let sorted := sortResults res
      let fullText := String.intercalate (" ") (sorted.map Prod.snd)
      let language := dominantLanguage langs
      let segs := buildSegments wavList cfg.rate sorted
      { result := .ok
          { fullText := fullText, language := language, segments := segs
            txt := txtContent language fullText
            srt := if cfg.saveSrt && !segs.isEmpty then some (composeSrt (mkSubtitles segs))
                   else none }
        dirCreated := true, dirExists := false, cpNext := cpN }

/-- _process_single_file (lines 302-357). Control flow in order: credential check
(306-310, raising ValueError), poll (314), decode (318), poll (322), segmentation
(326-332), poll (334), staging (337-346, creating save_dir), poll (350, cleanup then
raise), then _transcribe_segments. Polls take ordinals cp, cp+1, cp+2, cp+3 and the
drain continues from cp+4. -/
def processSingleFile (cfg : Cfg) (cancel : Nat → Bool) (cp : Nat) (w : FileWorld) :
    ProcRes :=
  if cfg.apiKey = "" ∧ cfg.envHasKey = false then
    { result := .error .auth, dirCreated := false, dirExists := false, cpNext := cp }
  else if cancel cp then
    { result := .error .cancelled, dirCreated := false, dirExists := false, cpNext := cp + 1 }
  else
    match w.decode with
    | .error e =>
        { result := .error (.decode e), dirCreated := false, dirExists := false
          cpNext := cp + 1 }
    | .ok wavLen =>
      if cancel (cp + 1) then
        { result := .error .cancelled, dirCreated := false, dirExists := false
          cpNext := cp + 2 }
      else
        match segStage w.vad wavLen cfg.rate with
        | .error e =>
            { result := .error (.vadLoad e), dirCreated := false, dirExists := false
              cpNext := cp + 2 }
        | .ok (wavList, _) =>
          if cancel (cp + 2) then
            { result := .error .cancelled, dirCreated := false, dirExists := false
              cpNext := cp + 3 }
          else if cancel (cp + 3) then
            { result := .error .cancelled, dirCreated := true, dirExists := false
              cpNext := cp + 4 }
          else
            transcribeSegments cfg cancel wavList w.completions (cp + 4)

/-- One entry of the list handed to batch_finished: the success dict of lines 428-435
or the failure dict of lines 289-296 (empty text/language/segments, error message). -/
structure FileRecord where
  fileIdx : Nat
  inputFile : String
  fullText : String
  language : String
  segments : List Seg
  error : Option String
deriving DecidableEq, Repr

/-- A batch input: the file name together with its external world. -/
abbrev FileInput := String × FileWorld

/-- Accumulated state of the batch loop of BatchTranscriptionWorker.run (lines
265-300): the break flag, next file index, next poll ordinal, the file_started and
file_error signal payloads, the results list (batch_finished payload) and the final
temp-directory state of each processed file. -/
structure BatchAcc where
  stopped : Bool
  nextIdx : Nat
  cp : Nat
  started : List (Nat × String)
  fileErrors : List (Nat × String)
  records : List FileRecord
  dirs : List Bool
deriving Repr

/-- One iteration of the batch loop: the `if self._is_cancelled: break` poll (271),
file_started (275), _process_single_file inside try/except (277-296) — a success
appends the result dict and emits file_completed, an exception appends the failure
dict and emits file_error — and batch_progress (298). -/
def batchStep (cfg : Cfg) (cancel : Nat → Bool) (acc : BatchAcc) (f : FileInput) :
    BatchAcc :=
  if acc.stopped then acc
  else if cancel acc.cp then { acc with stopped := true, cp := acc.cp + 1 }
  else
    let p := processSingleFile cfg cancel (acc.cp + 1) f.2
    match p.result with
    | .ok s =>
        { acc with
          nextIdx := acc.nextIdx + 1, cp := p.cpNext
          started := acc.started ++ [(acc.nextIdx, f.1)]
          records := acc.records ++
            [{ fileIdx := acc.nextIdx, inputFile := f.1, fullText := s.fullText
               language := s.language, segments := s.segments, error := none }]
          dirs := acc.dirs ++ [p.dirExists] }
    | .error e =>
        { acc with
          nextIdx := acc.nextIdx + 1, cp := p.cpNext
          started := acc.started ++ [(acc.nextIdx, f.1)]
          fileErrors := acc.fileErrors ++ [(acc.nextIdx, e.msg)]
          records := acc.records ++
            [{ fileIdx := acc.nextIdx, inputFile := f.1, fullText := ""
               language := "", segments := [], error := some e.msg }]
          dirs := acc.dirs ++ [p.dirExists] }

/-- The batch loop folded over the input files. -/
def batchGo (cfg : Cfg) (cancel : Nat → Bool) : List FileInput → BatchAcc → BatchAcc
  | [], acc => acc
  | f :: rest, acc => batchGo cfg cancel rest (batchStep cfg cancel acc f)

/-- The empty initial accumulator. -/
def batchInit : BatchAcc :=
  { stopped := false, nextIdx := 0, cp := 0, started := [], fileErrors := []
    records := [], dirs := [] }

/-- BatchTranscriptionWorker.run (lines 265-300): the loop over input_files followed
by batch_finished(results) — the records field of the final accumulator is exactly
the batch_finished payload, emitted whether or not the loop broke early. -/
def batchRun (cfg : Cfg) (cancel : Nat → Bool) (files : List FileInput) : BatchAcc :=
  batchGo cfg cancel files batchInit

/-! ## Helper functions and lemmas about the drain loops -/

/-- The successful (idx, recog_text) pairs of a completion list, in completion order. -/
def successes (comps : Completions) : List (Nat × String) :=
  comps.filterMap fun c =>
    match c.2 with | .ok lt => some (c.1, lt.2) | .error _ => none

/-- The language labels of the successful completions, in completion order. -/
def okLangs (comps : Completions) : List String :=
  comps.filterMap fun c =>
    match c.2 with | .ok lt => some lt.1 | .error _ => none

/-- The error.emit payloads produced by failed completions, in completion order. -/
def segFailMsgs (comps : Completions) : List String :=
  comps.filterMap fun c =>
    match c.2 with
    | .ok _ => none
    | .error e => some ("Segment " ++ toString c.1 ++ " failed: " ++ e)

/-- The segment_completed payloads of the successful completions, in completion order. -/
def segEvts (wavList : List WavSeg) (rate : Nat) (comps : Completions) :
    List (Nat × String × ℚ × ℚ) :=
  comps.filterMap fun c =>
    match c.2 with
    | .ok lt =>
        let w := wavList.getD c.1 (0, 0)
        some (c.1, lt.2, (w.1 : ℚ) / (rate : ℚ), (w.2 : ℚ) / (rate : ℚ))
    | .error _ => none

theorem singleDrainGo_neverCancel (wl : List WavSeg) (rate : Nat) (comps : Completions)
    (cp : Nat) (st : SingleDrainSt) :
    singleDrainGo neverCancel wl rate comps cp st =
      ⟨{ results := st.results ++ successes comps
         languages := st.languages ++ okLangs comps
         errors := st.errors ++ segFailMsgs comps
         segmentEvents := st.segmentEvents ++ segEvts wl rate comps },
       cp + comps.length, false⟩ := by
  induction comps generalizing cp st with
  | nil => simp [singleDrainGo, successes, okLangs, segFailMsgs, segEvts]
  | cons c rest ih =>
    obtain ⟨i, o⟩ := c
    cases o with
    | ok lt =>
        simp only [singleDrainGo, neverCancel, Bool.false_eq_true, if_false, ih,
          successes, okLangs, segFailMsgs, segEvts, List.filterMap_cons, List.length_cons,
          SingleDrainRes.mk.injEq, SingleDrainSt.mk.injEq]
        simp [List.append_assoc]
        omega
    | error e =>
        simp only [singleDrainGo, neverCancel, Bool.false_eq_true, if_false, ih,
          successes, okLangs, segFailMsgs, segEvts, List.filterMap_cons, List.length_cons,
          SingleDrainRes.mk.injEq, SingleDrainSt.mk.injEq]
        simp [List.append_assoc]
        omega

/-- A never-cancelled single-file run that gets past decoding and segmentation:
the drain tolerates failed segments (they only produce error.emit payloads) and the
run always assembles, writes the .txt file and emits finished_transcription. -/
theorem singleRun_noCancel (cfg : Cfg) (w : FileWorld)
    (hauth : ¬(cfg.apiKey = "" ∧ cfg.envHasKey = false))
    (wavLen : Nat) (hdec : w.decode = .ok wavLen)
    (wavList : List WavSeg) (b : Bool)
    (hseg : segStage w.vad wavLen cfg.rate = .ok (wavList, b)) :
    singleRun cfg w neverCancel =
      { errors := segFailMsgs w.completions
        segmentEvents := segEvts wavList cfg.rate w.completions
        txt := some (txtContent (dominantLanguage (okLangs w.completions))
                  (fullTextOf (successes w.completions)))
        srt := if cfg.saveSrt then
                 some (composeSrt (mkSubtitles
                   (buildSegments wavList cfg.rate (sortResults (successes w.completions)))))
               else none
        finished := some (fullTextOf (successes w.completions),
                      dominantLanguage (okLangs w.completions),
                      buildSegments wavList cfg.rate (sortResults (successes w.completions)))
        dirCreated := true, dirExists := false } := by
  unfold singleRun
  rw [if_neg hauth]
  simp only [hdec, hseg, neverCancel, Bool.false_eq_true, if_false,
    singleDrainGo_neverCancel]
  simp [fullTextOf]

/-- If every completion failed, no (idx, text) pair and no language label is collected. -/
theorem successes_nil_of_all_failed (comps : Completions)
    (hall : ∀ c ∈ comps, ∃ e, c.2 = Except.error e) :
    successes comps = [] ∧ okLangs comps = [] := by
  constructor <;>
  · simp only [successes, okLangs, List.filterMap_eq_nil_iff]
    intro c hc
    obtain ⟨e, he⟩ := hall c hc
    rw [he]

/-! ## C8 -/

/-- C8: for every input whose decoded duration is strictly below 180 seconds, the
segmentation stage yields exactly one segment spanning samples 0..wavLen and reports
that VAD was not invoked — for every possible VAD result, including a failing load. -/
theorem c8_short_input_single_segment (vad : Except String (List WavSeg))
    (wavLen rate : Nat) (h : duration wavLen rate < 180) :
    segStage vad wavLen rate = .ok ([(0, wavLen)], false) := by
  unfold segStage
  rw [if_neg (not_le.mpr h)]

theorem c8_short_input_single_segment_witness :
    duration 100 1 < 180
    ∧ segStage (.error ("vad load failed")) 100 1 = .ok ([(0, 100)], false) :=
  ⟨by norm_num [duration],
   c8_short_input_single_segment (.error ("vad load failed")) 100 1
     (by norm_num [duration])⟩

/-! ## C6 -/

theorem composeCuesFrom_map_index (subs : List Subtitle) (n : Nat) :
    (composeCuesFrom n subs).map Subtitle.index = List.range' n subs.length := by
  induction subs generalizing n with
  | nil => simp [composeCuesFrom]
  | cons s rest ih => simp [composeCuesFrom, List.range', ih]

theorem composeCuesFrom_map_content (subs : List Subtitle) (n : Nat) :
    (composeCuesFrom n subs).map Subtitle.content = subs.map Subtitle.content := by
  induction subs generalizing n with
  | nil => simp [composeCuesFrom]
  | cons s rest ih => simp [composeCuesFrom, ih]

theorem composeCuesFrom_map_startTd (subs : List Subtitle) (n : Nat) :
    (composeCuesFrom n subs).map Subtitle.startTd = subs.map Subtitle.startTd := by
  induction subs generalizing n with
  | nil => simp [composeCuesFrom]
  | cons s rest ih => simp [composeCuesFrom, ih]

theorem composeCuesFrom_map_endTd (subs : List Subtitle) (n : Nat) :
    (composeCuesFrom n subs).map Subtitle.endTd = subs.map Subtitle.endTd := by
  induction subs generalizing n with
  | nil => simp [composeCuesFrom]
  | cons s rest ih => simp [composeCuesFrom, ih]

/-- C6: the composed SRT document contains exactly one cue per segment, in the order
of the segments list (which the workers build in ascending index order), with cue
numbers 1, 2, ..., n (1-based and sequential, first cue numbered 1), each cue keeping
the start/end microsecond timestamps and the text of its segment, and every rendered
timestamp has the shape HH:MM:SS,mmm with minutes and seconds below 60 and
milliseconds below 1000. -/
theorem c6_srt_export (segs : List Seg) :
    (composeCues (mkSubtitles segs)).map Subtitle.index = List.range' 1 segs.length
    ∧ (composeCues (mkSubtitles segs)).map Subtitle.content = segs.map Seg.text
    ∧ (composeCues (mkSubtitles segs)).map Subtitle.startTd
        = (segs.map fun s => secondsToMicros s.start)
    ∧ (composeCues (mkSubtitles segs)).map Subtitle.endTd
        = (segs.map fun s => secondsToMicros s.stop)
    ∧ composeSrt (mkSubtitles segs)
        = String.join ((composeCues (mkSubtitles segs)).map subtitleBlock)
    ∧ ∀ micros : Nat, ∃ hh mm ss ms : Nat, mm < 60 ∧ ss < 60 ∧ ms < 1000 ∧
        srtTimestamp micros
          = pad2 hh ++ (":") ++ pad2 mm ++ (":") ++ pad2 ss ++ (",") ++ pad3 ms := by
  refine ⟨?_, ?_, ?_, ?_, rfl, ?_⟩
  · rw [composeCues, composeCuesFrom_map_index]
    simp [mkSubtitles]
  · rw [composeCues, composeCuesFrom_map_content]
    simp [mkSubtitles]
  · rw [composeCues, composeCuesFrom_map_startTd]
    simp [mkSubtitles]
  · rw [composeCues, composeCuesFrom_map_endTd]
    simp [mkSubtitles]
  · intro micros
    refine ⟨micros / 1000000 / 3600, micros / 1000000 % 3600 / 60, micros / 1000000 % 60,
      micros % 1000000 / 1000, by omega, by omega, by omega, rfl⟩

theorem intercalate_nil (s : String) : String.intercalate s [] = "" := rfl

/-! ## C10 -/

/-- C10: when no segment yields a language label — in particular when every segment
transcription failed in the single-file worker — the pipeline still completes: the
dominant language is the literal "Unknown", the .txt content is still produced with
"Unknown" on its first line and an empty text line, and finished_transcription is
still emitted (with empty text and no segments). -/
theorem c10_all_failed_still_completes (cfg : Cfg) (w : FileWorld) (wavLen : Nat)
    (wavList : List WavSeg) (b : Bool)
    (hauth : ¬(cfg.apiKey = "" ∧ cfg.envHasKey = false))
    (hdec : w.decode = .ok wavLen)
    (hseg : segStage w.vad wavLen cfg.rate = .ok (wavList, b))
    (hall : ∀ c ∈ w.completions, ∃ e, c.2 = Except.error e) :
    (singleRun cfg w neverCancel).txt = some (txtContent ("Unknown") (""))
    ∧ (singleRun cfg w neverCancel).finished = some (("", "Unknown", ([] : List Seg)))
    ∧ txtContent ("Unknown") ("") = "Unknown\n\n" := by
  obtain ⟨hs, hl⟩ := successes_nil_of_all_failed w.completions hall
  rw [singleRun_noCancel cfg w hauth wavLen hdec wavList b hseg]
  refine ⟨?_, ?_, rfl⟩ <;>
    simp [hs, hl, fullTextOf, sortResults, List.insertionSort, dominantLanguage,
      counterKeys, buildSegments, intercalate_nil]

theorem c10_all_failed_still_completes_witness :
    ((singleRun ⟨"k", false, 1, false⟩
        ⟨.ok 100, .ok [], [(0, .error ("boom"))]⟩ neverCancel).txt
      = some (txtContent ("Unknown") ("")))
    ∧ ((singleRun ⟨"k", false, 1, false⟩
        ⟨.ok 100, .ok [], [(0, .error ("boom"))]⟩ neverCancel).finished
      = some (("", "Unknown", ([] : List Seg)))) := by
  have h := c10_all_failed_still_completes ⟨"k", false, 1, false⟩
    ⟨.ok 100, .ok [], [(0, .error ("boom"))]⟩ 100 [(0, 100)] false
    (by simp)
    rfl
    (by simp +decide [segStage, duration])
    (by intro c hc
        simp only [List.mem_singleton] at hc
        exact ⟨"boom", by rw [hc]⟩)
  exact ⟨h.1, h.2.1⟩

/-! ## C5 -/

theorem counterKeys_mem (l : List String) (x : String) :
    x ∈ counterKeys l ↔ x ∈ l := by
  induction l using counterKeys.induct with
  | case1 => simp [counterKeys]
  | case2 a xs ih =>
    rw [counterKeys]
    by_cases hx : x = a
    · subst hx; simp
    · simp only [List.mem_cons, ih, List.mem_filter, decide_eq_true_eq]
      constructor
      · rintro (rfl | ⟨h, _⟩)
        · exact .inl rfl
        · exact .inr h
      · rintro (rfl | h)
        · exact .inl rfl
        · exact .inr ⟨h, hx⟩

theorem indexOf_cons_self_ne (hd a : String) (t : List String) (h : a ≠ hd) :
    (hd :: t).indexOf a = t.indexOf a + 1 := by
  rw [List.indexOf_cons]
  have : (hd == a) = false := by
    simp [h.symm]
  rw [this]
  rfl

theorem indexOf_cons_self_eq (a : String) (t : List String) :
    (a :: t).indexOf a = 0 := by
  rw [List.indexOf_cons]
  simp

theorem filterNe_indexOf_lt (x : String) (xs : List String) (a b : String)
    (ha : a ≠ x) (hb : b ≠ x)
    (h : (xs.filter (fun y => y ≠ x)).indexOf a < (xs.filter (fun y => y ≠ x)).indexOf b) :
    xs.indexOf a < xs.indexOf b := by
  rcases eq_or_ne a b with rfl | hab
  · exact absurd h (Nat.lt_irrefl _)
  induction xs with
  | nil => simp [List.indexOf_nil] at h
  | cons hd t ih =>
    by_cases hhd : hd = x
    · subst hhd
      rw [List.filter_cons_of_neg (by simp)] at h
      rw [indexOf_cons_self_ne _ _ _ ha, indexOf_cons_self_ne _ _ _ hb]
      exact Nat.succ_lt_succ (ih h)
    · rw [List.filter_cons_of_pos (by simp [hhd])] at h
      by_cases hahd : a = hd
      · subst hahd
        have hba : b ≠ a := fun he => hab he.symm
        rw [indexOf_cons_self_eq, indexOf_cons_self_ne _ _ _ hba]
        omega
      · by_cases hbhd : b = hd
        · subst hbhd
          rw [indexOf_cons_self_ne _ _ _ hahd, indexOf_cons_self_eq] at h
          omega
        · rw [indexOf_cons_self_ne _ _ _ hahd, indexOf_cons_self_ne _ _ _ hbhd] at h
          rw [indexOf_cons_self_ne _ _ _ hahd, indexOf_cons_self_ne _ _ _ hbhd]
          exact Nat.succ_lt_succ (ih (by omega))

theorem counterKeys_pairwise (l : List String) :
    List.Pairwise (fun a b => l.indexOf a < l.indexOf b) (counterKeys l) := by
  induction l using counterKeys.induct with
  | case1 => simp [counterKeys]
  | case2 x xs ih =>
    rw [counterKeys, List.pairwise_cons]
    constructor
    · intro b hb
      have hbmem : b ∈ xs.filter (fun y => y ≠ x) := (counterKeys_mem _ _).mp hb
      have hbne : b ≠ x := by
        have := (List.mem_filter.mp hbmem).2
        simpa using this
      rw [indexOf_cons_self_eq, indexOf_cons_self_ne _ _ _ hbne]
      omega
    · refine ih.imp_of_mem ?_
      intro a b hamem hbmem hab
      have haf : a ∈ xs.filter (fun y => y ≠ x) := (counterKeys_mem _ _).mp hamem
      have hbf : b ∈ xs.filter (fun y => y ≠ x) := (counterKeys_mem _ _).mp hbmem
      have hane : a ≠ x := by have := (List.mem_filter.mp haf).2; simpa using this
      have hbne : b ≠ x := by have := (List.mem_filter.mp hbf).2; simpa using this
      rw [indexOf_cons_self_ne _ _ _ hane, indexOf_cons_self_ne _ _ _ hbne]
      exact Nat.succ_lt_succ (filterNe_indexOf_lt x xs a b hane hbne hab)

theorem foldl_first_max (l : List String) (K : List String) (k : String)
    (hpw : List.Pairwise (fun a b => l.indexOf a < l.indexOf b) (k :: K)) :
    (K.foldl (fun best y => if l.count best < l.count y then y else best) k) ∈ k :: K
    ∧ (∀ y ∈ k :: K,
        l.count y ≤ l.count (K.foldl (fun best y => if l.count best < l.count y then y else best) k))
    ∧ (∀ y ∈ k :: K,
        l.count y = l.count (K.foldl (fun best y => if l.count best < l.count y then y else best) k) →
        l.indexOf (K.foldl (fun best y => if l.count best < l.count y then y else best) k) ≤ l.indexOf y) := by
  induction K generalizing k with
  | nil =>
    refine ⟨List.mem_singleton_self k, ?_, ?_⟩
    · intro y hy
      rw [List.mem_singleton] at hy
      subst hy; exact Nat.le_refl _
    · intro y hy _
      rw [List.mem_singleton] at hy
      subst hy; exact Nat.le_refl _
  | cons y0 K' ih =>
    have hk_y0 : l.indexOf k < l.indexOf y0 := (List.pairwise_cons.mp hpw).1 y0 (by simp)
    have hpw_tail : List.Pairwise (fun a b => l.indexOf a < l.indexOf b) (y0 :: K') :=
      (List.pairwise_cons.mp hpw).2
    by_cases hlt : l.count k < l.count y0
    · -- new best is y0
      have hstep : (y0 :: K').foldl (fun best y => if l.count best < l.count y then y else best) k
          = K'.foldl (fun best y => if l.count best < l.count y then y else best) y0 := by
        simp [List.foldl_cons, hlt]
      obtain ⟨hmem, hmax, htie⟩ := ih y0 hpw_tail
      rw [hstep]
      refine ⟨?_, ?_, ?_⟩
      · rcases List.mem_cons.mp hmem with h | h
        · exact List.mem_cons.mpr (.inr (List.mem_cons.mpr (.inl h)))
        · exact List.mem_cons.mpr (.inr (List.mem_cons.mpr (.inr h)))
      · intro y hy
        rcases List.mem_cons.mp hy with rfl | hy
        · calc l.count y ≤ l.count y0 := Nat.le_of_lt hlt
               _ ≤ _ := hmax y0 (by simp)
        · exact hmax y hy
      · intro y hy hcnt
        rcases List.mem_cons.mp hy with rfl | hy
        · exfalso
          have h1 : l.count y0 ≤ l.count (K'.foldl (fun best y => if l.count best < l.count y then y else best) y0) :=
            hmax y0 (by simp)
          omega
        · exact htie y hy hcnt
    · -- best stays k
      have hstep : (y0 :: K').foldl (fun best y => if l.count best < l.count y then y else best) k
          = K'.foldl (fun best y => if l.count best < l.count y then y else best) k := by
        simp [List.foldl_cons, hlt]
      have hpw' : List.Pairwise (fun a b => l.indexOf a < l.indexOf b) (k :: K') := by
        rw [List.pairwise_cons]
        exact ⟨fun b hb => (List.pairwise_cons.mp hpw).1 b (by simp [hb]),
               (List.pairwise_cons.mp hpw_tail).2⟩
      obtain ⟨hmem, hmax, htie⟩ := ih k hpw'
      rw [hstep]
      refine ⟨?_, ?_, ?_⟩
      · rcases List.mem_cons.mp hmem with h | h
        · exact List.mem_cons.mpr (.inl h)
        · exact List.mem_cons.mpr (.inr (List.mem_cons.mpr (.inr h)))
      · intro y hy
        rcases List.mem_cons.mp hy with rfl | hy'
        · exact hmax y (by simp)
        · rcases List.mem_cons.mp hy' with rfl | hy''
          · calc l.count y ≤ l.count k := Nat.le_of_not_lt hlt
                 _ ≤ _ := hmax k (by simp)
          · exact hmax y (by simp [hy''])
      · intro y hy hcnt
        rcases List.mem_cons.mp hy with rfl | hy'
        · exact htie y (by simp) hcnt
        · rcases List.mem_cons.mp hy' with rfl | hy''
          · have hck : l.count k ≤ l.count (K'.foldl (fun best y => if l.count best < l.count y then y else best) k) :=
              hmax k (by simp)
            have hyk : l.count y ≤ l.count k := Nat.le_of_not_lt hlt
            have hck_eq : l.count k = l.count (K'.foldl (fun best y => if l.count best < l.count y then y else best) k) := by
              omega
            have := htie k (by simp) hck_eq
            omega
          · exact htie y (by simp [hy'']) hcnt

theorem counterKeys_eq_nil (l : List String) : counterKeys l = [] ↔ l = [] := by
  cases l with
  | nil => simp [counterKeys]
  | cons x xs => simp [counterKeys]

/-- C5 (amended): the dominant language is the most frequent label, but ties are
broken in favour of the label whose FIRST OCCURRENCE comes earliest in the
completion-ordered languages list (Counter insertion order) — i.e. arrival order of
the pool, not the index order of the segment results. -/
theorem c5_dominant_language_amended (langs : List String) (h : langs ≠ []) :
    dominantLanguage langs ∈ langs
    ∧ (∀ y ∈ langs, langs.count y ≤ langs.count (dominantLanguage langs))
    ∧ (∀ y ∈ langs, langs.count y = langs.count (dominantLanguage langs) →
        langs.indexOf (dominantLanguage langs) ≤ langs.indexOf y) := by
  have hck : counterKeys langs ≠ [] := by
    rw [Ne, counterKeys_eq_nil]; exact h
  rcases hk : counterKeys langs with _ | ⟨k, ks⟩
  · exact absurd hk hck
  · have hpw := counterKeys_pairwise langs
    rw [hk] at hpw
    have hd : dominantLanguage langs
        = ks.foldl (fun best y => if langs.count best < langs.count y then y else best) k := by
      rw [dominantLanguage, hk]
    obtain ⟨hmem, hmax, htie⟩ := foldl_first_max langs ks k hpw
    rw [hd]
    refine ⟨?_, ?_, ?_⟩
    · have hm : (ks.foldl (fun best y => if langs.count best < langs.count y then y else best) k)
          ∈ counterKeys langs := by
        rw [hk]; exact hmem
      exact (counterKeys_mem _ _).mp hm
    · intro y hy
      have hyk : y ∈ counterKeys langs := (counterKeys_mem _ _).mpr hy
      rw [hk] at hyk
      exact hmax y hyk
    · intro y hy hcnt
      have hyk : y ∈ counterKeys langs := (counterKeys_mem _ _).mpr hy
      rw [hk] at hyk
      exact htie y hyk hcnt

theorem c5_dominant_language_amended_witness :
    ((["en", "en", "fr"] : List String) ≠ [])
    ∧ (dominantLanguage ["en", "en", "fr"] ∈ (["en", "en", "fr"] : List String)
      ∧ (∀ y ∈ (["en", "en", "fr"] : List String),
          List.count y ["en", "en", "fr"] ≤ List.count (dominantLanguage ["en", "en", "fr"]) ["en", "en", "fr"])
      ∧ (∀ y ∈ (["en", "en", "fr"] : List String),
          List.count y ["en", "en", "fr"] = List.count (dominantLanguage ["en", "en", "fr"]) ["en", "en", "fr"] →
          List.indexOf (dominantLanguage ["en", "en", "fr"]) ["en", "en", "fr"]
            ≤ List.indexOf y ["en", "en", "fr"])) :=
  ⟨by decide, c5_dominant_language_amended ["en", "en", "fr"] (by decide)⟩

/-- C5 (counterexample): a file whose index-ordered segment labels are ["en", "fr"]
(segment 0 detected "en", segment 1 detected "fr"), but whose segment 1 completes
first: the pipeline reports dominant language "fr", not the "en" required by the
claimed index-ordered tie-break. -/
theorem c5_counterexample :
    (singleRun ⟨"k", false, 1, false⟩
        ⟨.ok 200, .ok [(0, 100), (100, 200)],
         [(1, .ok ("fr", "b")), (0, .ok ("en", "a"))]⟩ neverCancel).finished
      = some ("a b", "fr",
          [⟨0, 0, 100, "a"⟩, ⟨1, 100, 200, "b"⟩])
    ∧ ("fr" : String) ≠ "en" := by
  constructor
  · rw [singleRun_noCancel _ _ (by simp) 200 rfl [(0, 100), (100, 200)] true
      (by simp +decide [segStage, duration, Except.map])]
    simp only [Option.some.injEq, Prod.mk.injEq]
    refine ⟨?_, ?_, ?_⟩
    · simp +decide [successes, fullTextOf, sortResults, List.insertionSort,
        List.orderedInsert, idxLe]
    · simp +decide [okLangs, dominantLanguage, counterKeys]
    · simp +decide [successes, sortResults, List.insertionSort, List.orderedInsert,
        idxLe, buildSegments]
  · decide

/-! ## C7 -/

/-- Strict index comparison, used to show key-distinct sorted lists are unique. -/
def idxLt (a b : Nat × String) : Prop := a.1 < b.1

instance : IsAntisymm (Nat × String) idxLt :=
  ⟨fun _ _ h h' => absurd (Nat.lt_trans h h') (Nat.lt_irrefl _)⟩

theorem sorted_idxLt_of_nodup (l : List (Nat × String))
    (hs : List.Sorted idxLe l) (hnd : (l.map Prod.fst).Nodup) :
    List.Sorted idxLt l := by
  have hnd' : List.Pairwise (fun a b : Nat × String => a.1 ≠ b.1) l :=
    List.pairwise_map.mp hnd
  exact (hs.and hnd').imp fun h => Nat.lt_of_le_of_ne h.1 h.2

theorem sortResults_sorted (l : List (Nat × String)) :
    List.Sorted idxLe (sortResults l) :=
  List.sorted_insertionSort idxLe l

theorem sortResults_perm (l : List (Nat × String)) :
    (sortResults l).Perm l :=
  List.perm_insertionSort idxLe l

theorem sortResults_eq_of_perm (l₁ l₂ : List (Nat × String))
    (hnd : (l₁.map Prod.fst).Nodup) (hp : l₁.Perm l₂) :
    sortResults l₁ = sortResults l₂ := by
  have hnd₂ : (l₂.map Prod.fst).Nodup := ((hp.map Prod.fst).nodup_iff).mp hnd
  have hnds₁ : ((sortResults l₁).map Prod.fst).Nodup :=
    (((sortResults_perm l₁).map Prod.fst).nodup_iff).mpr hnd
  have hnds₂ : ((sortResults l₂).map Prod.fst).Nodup :=
    (((sortResults_perm l₂).map Prod.fst).nodup_iff).mpr hnd₂
  refine List.eq_of_perm_of_sorted (r := idxLt) ?_ ?_ ?_
  · exact ((sortResults_perm l₁).trans hp).trans (sortResults_perm l₂).symm
  · exact sorted_idxLt_of_nodup _ (sortResults_sorted l₁) hnds₁
  · exact sorted_idxLt_of_nodup _ (sortResults_sorted l₂) hnds₂

theorem map_fst_successes (comps : Completions)
    (hok : ∀ c ∈ comps, ∃ lt, c.2 = Except.ok lt) :
    (successes comps).map Prod.fst = comps.map Prod.fst := by
  induction comps with
  | nil => rfl
  | cons c rest ih =>
    obtain ⟨lt, hlt⟩ := hok c (by simp)
    have ih' := ih fun c hc => hok c (by simp [hc])
    simp only [successes, List.filterMap_cons, hlt, List.map_cons] at ih' ⊢
    simp [ih']

/-- C7: for a completion list whose segments all succeeded (with pairwise distinct
segment indices), the assembled full_text is the texts joined with a single space in
ascending segment-index order, and both the sorted results list and the joined text
are identical for every permutation of the order in which completions arrive. -/
theorem c7_assembly_order (comps₁ comps₂ : Completions)
    (hok : ∀ c ∈ comps₁, ∃ lt, c.2 = Except.ok lt)
    (hnd : (comps₁.map Prod.fst).Nodup)
    (hperm : comps₁.Perm comps₂) :
    fullTextOf (successes comps₁) = fullTextOf (successes comps₂)
    ∧ sortResults (successes comps₁) = sortResults (successes comps₂)
    ∧ List.Sorted (· ≤ ·) ((sortResults (successes comps₁)).map Prod.fst)
    ∧ (sortResults (successes comps₁)).Perm (successes comps₁)
    ∧ fullTextOf (successes comps₁)
        = String.intercalate (" ") ((sortResults (successes comps₁)).map Prod.snd) := by
  have hndS : ((successes comps₁).map Prod.fst).Nodup := by
    rw [map_fst_successes comps₁ hok]; exact hnd
  have hpS : (successes comps₁).Perm (successes comps₂) := hperm.filterMap _
  have hsorteq : sortResults (successes comps₁) = sortResults (successes comps₂) :=
    sortResults_eq_of_perm _ _ hndS hpS
  refine ⟨by rw [fullTextOf, fullTextOf, hsorteq], hsorteq, ?_, sortResults_perm _, rfl⟩
  · have := sortResults_sorted (successes comps₁)
    exact List.pairwise_map.mpr (this.imp fun h => h)

theorem c7_assembly_order_witness :
    (∀ c ∈ ([(0, .ok ("en", "a")), (1, .ok ("fr", "b"))] : Completions),
        ∃ lt, c.2 = Except.ok lt)
    ∧ (([(0, .ok ("en", "a")), (1, .ok ("fr", "b"))] : Completions).map Prod.fst).Nodup
    ∧ ([(0, .ok ("en", "a")), (1, .ok ("fr", "b"))] : Completions).Perm
        [(1, .ok ("fr", "b")), (0, .ok ("en", "a"))]
    ∧ fullTextOf (successes [(0, .ok ("en", "a")), (1, .ok ("fr", "b"))])
        = fullTextOf (successes [(1, .ok ("fr", "b")), (0, .ok ("en", "a"))])
    ∧ fullTextOf (successes [(0, .ok ("en", "a")), (1, .ok ("fr", "b"))]) = "a b" := by
  have hok : ∀ c ∈ ([(0, .ok ("en", "a")), (1, .ok ("fr", "b"))] : Completions),
      ∃ lt, c.2 = Except.ok lt := by
    intro c hc
    simp only [List.mem_cons, List.mem_singleton] at hc
    rcases hc with rfl | rfl | h
    · exact ⟨("en", "a"), rfl⟩
    · exact ⟨("fr", "b"), rfl⟩
    · exact absurd h (List.not_mem_nil c)
  have h := c7_assembly_order
    [(0, .ok ("en", "a")), (1, .ok ("fr", "b"))]
    [(1, .ok ("fr", "b")), (0, .ok ("en", "a"))]
    hok (by decide) (List.Perm.swap _ _ _)
  refine ⟨hok, by decide, List.Perm.swap _ _ _, h.1, ?_⟩
  simp +decide [successes, fullTextOf, sortResults, List.insertionSort,
    List.orderedInsert, idxLe]

/-! ## C1 -/

theorem drainGo_first_error (pre : Completions) (i : Nat) (e : String)
    (post : Completions) (cp : Nat) (res : List (Nat × String)) (langs : List String)
    (hok : ∀ x ∈ pre, ∃ lt, x.2 = Except.ok lt) :
    (drainGo neverCancel (pre ++ (i, Except.error e) :: post) cp res langs).result
      = .error (.segment e) := by
  induction pre generalizing cp res langs with
  | nil => simp [drainGo, neverCancel]
  | cons c rest ih =>
    obtain ⟨lt, hlt⟩ := hok c (by simp)
    rw [List.cons_append, drainGo]
    simp only [neverCancel, Bool.false_eq_true, if_false, hlt]
    exact ih _ _ _ fun x hx => hok x (by simp [hx])

theorem processSingleFile_stage_ok (cfg : Cfg) (w : FileWorld) (cp : Nat)
    (hauth : ¬(cfg.apiKey = "" ∧ cfg.envHasKey = false))
    (wavLen : Nat) (hdec : w.decode = .ok wavLen)
    (wavList : List WavSeg) (b : Bool)
    (hseg : segStage w.vad wavLen cfg.rate = .ok (wavList, b)) :
    processSingleFile cfg neverCancel cp w
      = transcribeSegments cfg neverCancel wavList w.completions (cp + 4) := by
  unfold processSingleFile
  rw [if_neg hauth]
  simp [hdec, hseg, neverCancel]

/-- C1 (amended): the two workers implement different segment-failure policies.
In the batch worker a failed segment does not cancel its siblings (the executor
context still waits for them), but the FIRST failed segment in completion order
aborts the file: _process_single_file raises that segment error, the file record
carries it, and every already-produced segment text is discarded (empty full_text,
no segments, no output files). The single-file worker instead skips failed segments:
it drains to the end, assembles the successful texts, writes the .txt file and emits
finished_transcription — a partial transcript is produced and the file is not
reported as failed. -/
theorem c1_failure_policy_amended :
    (∀ (cfg : Cfg) (w : FileWorld) (cp : Nat) (wavLen : Nat) (wavList : List WavSeg)
        (b : Bool) (pre post : Completions) (i : Nat) (e : String),
        ¬(cfg.apiKey = "" ∧ cfg.envHasKey = false) →
        w.decode = .ok wavLen →
        segStage w.vad wavLen cfg.rate = .ok (wavList, b) →
        w.completions = pre ++ (i, Except.error e) :: post →
        (∀ x ∈ pre, ∃ lt, x.2 = Except.ok lt) →
        (processSingleFile cfg neverCancel cp w).result = .error (.segment e))
    ∧ (∀ (cfg : Cfg) (cancel : Nat → Bool) (acc : BatchAcc) (f : FileInput) (err : BErr),
        acc.stopped = false →
        cancel acc.cp = false →
        (processSingleFile cfg cancel (acc.cp + 1) f.2).result = .error err →
        (batchStep cfg cancel acc f).records = acc.records ++
          [{ fileIdx := acc.nextIdx, inputFile := f.1, fullText := "", language := ""
             segments := [], error := some err.msg }])
    ∧ (∀ (cfg : Cfg) (w : FileWorld) (wavLen : Nat) (wavList : List WavSeg) (b : Bool),
        ¬(cfg.apiKey = "" ∧ cfg.envHasKey = false) →
        w.decode = .ok wavLen →
        segStage w.vad wavLen cfg.rate = .ok (wavList, b) →
        (singleRun cfg w neverCancel).txt
          = some (txtContent (dominantLanguage (okLangs w.completions))
              (fullTextOf (successes w.completions)))
        ∧ (singleRun cfg w neverCancel).finished
          = some (fullTextOf (successes w.completions),
              dominantLanguage (okLangs w.completions),
              buildSegments wavList cfg.rate (sortResults (successes w.completions)))) := by
  refine ⟨?_, ?_, ?_⟩
  · intro cfg w cp wavLen wavList b pre post i e hauth hdec hseg hcomp hok
    rw [processSingleFile_stage_ok cfg w cp hauth wavLen hdec wavList b hseg]
    unfold transcribeSegments
    rw [hcomp]
    have hd := drainGo_first_error pre i e post (cp + 4) [] [] hok
    rcases hdg : drainGo neverCancel (pre ++ (i, Except.error e) :: post) (cp + 4) [] []
      with ⟨r, cpN⟩
    rw [hdg] at hd
    simp only at hd
    rw [hd]
  · intro cfg cancel acc f err hstop hcan hproc
    unfold batchStep
    rw [if_neg (by rw [hstop]; exact Bool.false_ne_true),
        if_neg (by rw [hcan]; exact Bool.false_ne_true)]
    simp only [hproc]
  · intro cfg w wavLen wavList b hauth hdec hseg
    rw [singleRun_noCancel cfg w hauth wavLen hdec wavList b hseg]
    exact ⟨rfl, rfl⟩

theorem c1_failure_policy_amended_witness :
    ((processSingleFile ⟨"k", false, 1, false⟩ neverCancel 1
        ⟨.ok 100, .ok [], [(0, Except.error ("boom"))]⟩).result = .error (.segment "boom"))
    ∧ ((singleRun ⟨"k", false, 1, false⟩
        ⟨.ok 100, .ok [], [(0, Except.error ("boom"))]⟩ neverCancel).txt
      = some (txtContent (dominantLanguage (okLangs [(0, Except.error ("boom"))]))
          (fullTextOf (successes [(0, Except.error ("boom"))])))) := by
  constructor
  · exact c1_failure_policy_amended.1 ⟨"k", false, 1, false⟩
      ⟨.ok 100, .ok [], [(0, Except.error ("boom"))]⟩ 1 100 [(0, 100)] false
      [] [] 0 "boom"
      (by simp) rfl (by simp +decide [segStage, duration]) rfl
      (by intro x hx; exact absurd hx (List.not_mem_nil x))
  · exact (c1_failure_policy_amended.2.2 ⟨"k", false, 1, false⟩
      ⟨.ok 100, .ok [], [(0, Except.error ("boom"))]⟩ 100 [(0, 100)] false
      (by simp) rfl (by simp +decide [segStage, duration])).1

/-- C1 (counterexample): in the single-file worker a run with one successful and one
failed segment still writes the .txt file with the partial transcript "hello" and
still emits finished_transcription — the file is not reported as failed and the
produced text is not discarded, contradicting the claimed drain-then-fail policy. -/
theorem c1_counterexample :
    (singleRun ⟨"k", false, 1, false⟩
        ⟨.ok 200, .ok [(0, 100), (100, 200)],
         [(0, .ok ("en", "hello")), (1, Except.error ("boom"))]⟩ neverCancel).txt
      = some ("en\nhello\n")
    ∧ (singleRun ⟨"k", false, 1, false⟩
        ⟨.ok 200, .ok [(0, 100), (100, 200)],
         [(0, .ok ("en", "hello")), (1, Except.error ("boom"))]⟩ neverCancel).finished
      = some ("hello", "en", [⟨0, 0, 100, "hello"⟩])
    ∧ (singleRun ⟨"k", false, 1, false⟩
        ⟨.ok 200, .ok [(0, 100), (100, 200)],
         [(0, .ok ("en", "hello")), (1, Except.error ("boom"))]⟩ neverCancel).errors
      = ["Segment 1 failed: boom"] := by
  rw [singleRun_noCancel _ _ (by simp) 200 rfl [(0, 100), (100, 200)] true
    (by simp +decide [segStage, duration, Except.map])]
  refine ⟨?_, ?_, ?_⟩
  · simp +decide [successes, okLangs, fullTextOf, sortResults, List.insertionSort,
      List.orderedInsert, idxLe, dominantLanguage, counterKeys, txtContent]
  · simp only [Option.some.injEq, Prod.mk.injEq]
    refine ⟨?_, ?_, ?_⟩
    · simp +decide [successes, fullTextOf, sortResults, List.insertionSort,
        List.orderedInsert, idxLe]
    · simp +decide [okLangs, dominantLanguage, counterKeys]
    · simp +decide [successes, sortResults, List.insertionSort, List.orderedInsert,
        idxLe, buildSegments]
  · simp +decide [segFailMsgs]

/-! ## C9 -/

/-- C9: evaluation at the failing input. Segment 0 fails, segment 1 succeeds with
text "T1"; segment 1 spans samples 100..200 (seconds 100..200), yet the single entry
of the emitted segments list pairs the text "T1" with start/end 0..100 — the span of
segment 0 — because the loop building the list enumerates positions of the sorted
results instead of using the segment index stored in each result tuple. -/
theorem c9_segment_timestamp_mismatch :
    (singleRun ⟨"k", false, 1, false⟩
        ⟨.ok 200, .ok [(0, 100), (100, 200)],
         [(1, .ok ("en", "T1")), (0, Except.error ("boom"))]⟩ neverCancel).finished
      = some ("T1", "en", [⟨0, 0, 100, "T1"⟩])
    ∧ ((0 : ℚ), (100 : ℚ)) ≠ ((100 : ℚ), (200 : ℚ)) := by
  constructor
  · rw [singleRun_noCancel _ _ (by simp) 200 rfl [(0, 100), (100, 200)] true
      (by simp +decide [segStage, duration, Except.map])]
    simp only [Option.some.injEq, Prod.mk.injEq]
    refine ⟨?_, ?_, ?_⟩
    · simp +decide [successes, fullTextOf, sortResults, List.insertionSort,
        List.orderedInsert, idxLe]
    · simp +decide [okLangs, dominantLanguage, counterKeys]
    · simp +decide [successes, sortResults, List.insertionSort, List.orderedInsert,
        idxLe, buildSegments]
  · decide

/-! ## C3 -/

theorem drainGo_error_inv (cancel : Nat → Bool) (comps : Completions) (cp : Nat)
    (res : List (Nat × String)) (langs : List String) (e : BErr)
    (h : (drainGo cancel comps cp res langs).result = .error e) :
    e = .cancelled ∨ ∃ m, e = .segment m := by
  induction comps generalizing cp res langs with
  | nil => simp [drainGo] at h
  | cons c rest ih =>
    rw [drainGo] at h
    by_cases hc : cancel cp = true
    · rw [if_pos hc] at h
      simp only [Except.error.injEq] at h
      exact .inl h.symm
    · rw [if_neg hc] at h
      rcases ho : c.2 with e' | lt
      · rw [ho] at h
        simp only [Except.error.injEq] at h
        exact .inr ⟨e', h.symm⟩
      · rw [ho] at h
        exact ih _ _ _ h

theorem transcribeSegments_dirExists (cfg : Cfg) (cancel : Nat → Bool)
    (wavList : List WavSeg) (comps : Completions) (cp : Nat) :
    (transcribeSegments cfg cancel wavList comps cp).dirExists = true
      ↔ ∃ m, (transcribeSegments cfg cancel wavList comps cp).result
          = .error (.segment m) := by
  unfold transcribeSegments
  rcases hdg : drainGo cancel comps cp [] [] with ⟨r, cpN⟩
  rcases r with e | ok
  · have hinv := drainGo_error_inv cancel comps cp [] [] e (by rw [hdg])
    rcases hinv with rfl | ⟨m, rfl⟩
    · simp
    · simp
  · rcases ok with ⟨res, langs⟩
    simp

/-- C3 (amended): the temp workspace directory is removed (or never created) on every
exit path of _process_single_file EXCEPT a segment-transcription failure: the
directory survives the run if and only if the file failed with a segment error. In
the single-file worker (whose catch-all swallows the segment errors inside the drain)
the directory never survives. Success, cancellation at any checkpoint, auth, decode
and VAD-load failures all leave no directory behind in either worker. -/
theorem c3_cleanup_amended :
    (∀ (cfg : Cfg) (cancel : Nat → Bool) (cp : Nat) (w : FileWorld),
        (processSingleFile cfg cancel cp w).dirExists = true
          ↔ ∃ m, (processSingleFile cfg cancel cp w).result = .error (.segment m))
    ∧ (∀ (cfg : Cfg) (w : FileWorld) (cancel : Nat → Bool),
        (singleRun cfg w cancel).dirExists = false) := by
  constructor
  · intro cfg cancel cp w
    unfold processSingleFile
    repeat' split
    all_goals first
      | simp
      | apply transcribeSegments_dirExists
  · intro cfg w cancel
    unfold singleRun
    repeat' split
    all_goals first
      | rfl
      | simp [apply_ite SingleOut.dirExists]

/-- C3 (counterexample): a batch-worker file with a single failing segment ends with
the workspace directory still in existence — no cleanup ran on the segment-error
path, although the claim requires deletion on every exit path. -/
theorem c3_counterexample :
    (processSingleFile ⟨"k", false, 1, false⟩ neverCancel 1
        ⟨.ok 100, .ok [], [(0, Except.error ("boom"))]⟩).dirExists = true
    ∧ (processSingleFile ⟨"k", false, 1, false⟩ neverCancel 1
        ⟨.ok 100, .ok [], [(0, Except.error ("boom"))]⟩).result
      = .error (.segment "boom") := by
  rw [processSingleFile_stage_ok ⟨"k", false, 1, false⟩ _ 1 (by simp) 100 rfl
    [(0, 100)] false (by simp +decide [segStage, duration])]
  constructor <;> simp [transcribeSegments, drainGo, neverCancel]

/-! ## Checkpoint-schedule lemmas for cancellation (C2) -/

theorem stepCancel_false (T i : Nat) (h : i < T) : stepCancel T i = false := by
  simp only [stepCancel, decide_eq_false_iff_not]
  omega

theorem stepCancel_true (T i : Nat) (h : T ≤ i) : stepCancel T i = true := by
  simp only [stepCancel, decide_eq_true_eq]
  exact h

theorem drainGo_cp_mono (cancel : Nat → Bool) (comps : Completions) (cp : Nat)
    (res : List (Nat × String)) (langs : List String) :
    cp ≤ (drainGo cancel comps cp res langs).cpNext := by
  induction comps generalizing cp res langs with
  | nil => exact Nat.le_refl cp
  | cons c rest ih =>
    rw [drainGo]
    by_cases hc : cancel cp = true
    · rw [if_pos hc]
      exact Nat.le_succ cp
    · rw [if_neg hc]
      rcases ho : c.2 with e | lt
      · exact Nat.le_succ cp
      · exact Nat.le_trans (Nat.le_succ cp) (ih (cp + 1) _ _)

theorem drainGo_agree (comps : Completions) (cp : Nat) (res : List (Nat × String))
    (langs : List String) (T : Nat)
    (h : (drainGo neverCancel comps cp res langs).cpNext ≤ T) :
    drainGo (stepCancel T) comps cp res langs = drainGo neverCancel comps cp res langs := by
  induction comps generalizing cp res langs with
  | nil => rfl
  | cons c rest ih =>
    rw [drainGo, if_neg (show ¬neverCancel cp = true by simp [neverCancel])] at h
    rw [drainGo, drainGo, if_neg (show ¬neverCancel cp = true by simp [neverCancel])]
    rcases ho : c.2 with e | lt
    · rw [ho] at h
      have h' : cp + 1 ≤ T := h
      rw [if_neg (show ¬stepCancel T cp = true by
        rw [stepCancel_false T cp (by omega)]; exact Bool.false_ne_true)]
    · rw [ho] at h
      have h' : (drainGo neverCancel rest (cp + 1) (res ++ [(c.1, lt.2)])
          (langs ++ [lt.1])).cpNext ≤ T := h
      have hmono := drainGo_cp_mono neverCancel rest (cp + 1)
        (res ++ [(c.1, lt.2)]) (langs ++ [lt.1])
      rw [if_neg (show ¬stepCancel T cp = true by
        rw [stepCancel_false T cp (by omega)]; exact Bool.false_ne_true)]
      exact ih _ _ _ h'

theorem drainGo_cancelled (comps : Completions) (cp : Nat) (res : List (Nat × String))
    (langs : List String) (T : Nat) (h1 : cp ≤ T)
    (h2 : T < (drainGo neverCancel comps cp res langs).cpNext) :
    drainGo (stepCancel T) comps cp res langs = ⟨.error .cancelled, T + 1⟩ := by
  induction comps generalizing cp res langs with
  | nil =>
    have h2' : T < cp := h2
    omega
  | cons c rest ih =>
    rw [drainGo, if_neg (show ¬neverCancel cp = true by simp [neverCancel])] at h2
    rcases Nat.eq_or_lt_of_le h1 with rfl | hlt
    · rw [drainGo, if_pos (stepCancel_true cp cp (Nat.le_refl cp))]
    · rw [drainGo, if_neg (show ¬stepCancel T cp = true by
        rw [stepCancel_false T cp hlt]; exact Bool.false_ne_true)]
      rcases ho : c.2 with e | lt
      · rw [ho] at h2
        have h2' : T < cp + 1 := h2
        omega
      · rw [ho] at h2
        have h2' : T < (drainGo neverCancel rest (cp + 1) (res ++ [(c.1, lt.2)])
            (langs ++ [lt.1])).cpNext := h2
        exact ih _ _ _ (by omega) h2'

theorem transcribeSegments_cpNext (cfg : Cfg) (cancel : Nat → Bool)
    (wavList : List WavSeg) (comps : Completions) (cp : Nat) :
    (transcribeSegments cfg cancel wavList comps cp).cpNext
      = (drainGo cancel comps cp [] []).cpNext := by
  unfold transcribeSegments
  rcases hdg : drainGo cancel comps cp [] [] with ⟨r, cpN⟩
  rcases r with e | ok
  · rfl
  · rcases ok with ⟨a, b⟩
    rfl

theorem transcribeSegments_agree (cfg : Cfg) (wavList : List WavSeg)
    (comps : Completions) (cp T : Nat)
    (h : (transcribeSegments cfg neverCancel wavList comps cp).cpNext ≤ T) :
    transcribeSegments cfg (stepCancel T) wavList comps cp
      = transcribeSegments cfg neverCancel wavList comps cp := by
  rw [transcribeSegments_cpNext] at h
  unfold transcribeSegments
  rw [drainGo_agree comps cp [] [] T h]

theorem transcribeSegments_cancelled (cfg : Cfg) (wavList : List WavSeg)
    (comps : Completions) (cp T : Nat) (h1 : cp ≤ T)
    (h2 : T < (transcribeSegments cfg neverCancel wavList comps cp).cpNext) :
    transcribeSegments cfg (stepCancel T) wavList comps cp
      = { result := .error .cancelled, dirCreated := true, dirExists := false
          cpNext := T + 1 } := by
  rw [transcribeSegments_cpNext] at h2
  unfold transcribeSegments
  rw [drainGo_cancelled comps cp [] [] T h1 h2]

theorem ps_cp_mono (cfg : Cfg) (cancel : Nat → Bool) (cp : Nat) (w : FileWorld) :
    cp ≤ (processSingleFile cfg cancel cp w).cpNext := by
  unfold processSingleFile
  repeat' split
  all_goals first
    | exact Nat.le_refl cp
    | exact show cp ≤ cp + 1 by omega
    | exact show cp ≤ cp + 2 by omega
    | exact show cp ≤ cp + 3 by omega
    | exact show cp ≤ cp + 4 by omega
    | exact Nat.le_trans (show cp ≤ cp + 4 by omega)
        (by rw [transcribeSegments_cpNext]; exact drainGo_cp_mono _ _ _ _ _)

theorem ps_agree (cfg : Cfg) (cp : Nat) (w : FileWorld) (T : Nat)
    (h : (processSingleFile cfg neverCancel cp w).cpNext ≤ T) :
    processSingleFile cfg (stepCancel T) cp w = processSingleFile cfg neverCancel cp w := by
  unfold processSingleFile at h ⊢
  by_cases hauth : cfg.apiKey = "" ∧ cfg.envHasKey = false
  · rw [if_pos hauth, if_pos hauth]
  · simp only [if_neg hauth, neverCancel, Bool.false_eq_true, if_false] at h ⊢
    rcases hdec : w.decode with e | wavLen
    · simp only [hdec] at h ⊢
      have h' : cp + 1 ≤ T := h
      simp only [stepCancel_false T cp (by omega), Bool.false_eq_true, if_false]
    · simp only [hdec] at h ⊢
      rcases hseg : segStage w.vad wavLen cfg.rate with e | wb
      · simp only [hseg] at h ⊢
        have h' : cp + 2 ≤ T := h
        simp only [stepCancel_false T cp (by omega), stepCancel_false T (cp + 1) (by omega),
          Bool.false_eq_true, if_false]
      · rcases wb with ⟨wavList, b⟩
        simp only [hseg] at h ⊢
        have hts : cp + 4 ≤ (transcribeSegments cfg neverCancel wavList
            w.completions (cp + 4)).cpNext := by
          rw [transcribeSegments_cpNext]; exact drainGo_cp_mono _ _ _ _ _
        have h' : (transcribeSegments cfg neverCancel wavList
            w.completions (cp + 4)).cpNext ≤ T := h
        simp only [stepCancel_false T cp (by omega), stepCancel_false T (cp + 1) (by omega),
          stepCancel_false T (cp + 2) (by omega), stepCancel_false T (cp + 3) (by omega),
          Bool.false_eq_true, if_false]
        exact transcribeSegments_agree cfg wavList w.completions (cp + 4) T h'

theorem ps_cancelled (cfg : Cfg) (cp : Nat) (w : FileWorld) (T : Nat) (h1 : cp ≤ T)
    (h2 : T < (processSingleFile cfg neverCancel cp w).cpNext) :
    (processSingleFile cfg (stepCancel T) cp w).result = .error .cancelled
    ∧ (processSingleFile cfg (stepCancel T) cp w).cpNext = T + 1
    ∧ (processSingleFile cfg (stepCancel T) cp w).dirExists = false := by
  unfold processSingleFile at h2 ⊢
  by_cases hauth : cfg.apiKey = "" ∧ cfg.envHasKey = false
  · rw [if_pos hauth] at h2
    have h2' : T < cp := h2
    omega
  · simp only [if_neg hauth, neverCancel, Bool.false_eq_true, if_false] at h2 ⊢
    rcases hdec : w.decode with e | wavLen
    · simp only [hdec] at h2 ⊢
      have h2' : T < cp + 1 := h2
      have hT : T = cp := by omega
      subst hT
      simp only [stepCancel_true T T (Nat.le_refl T), if_true]
      refine ⟨?_, ?_, ?_⟩ <;> trivial
    · simp only [hdec] at h2 ⊢
      rcases hseg : segStage w.vad wavLen cfg.rate with e | wb
      · simp only [hseg] at h2 ⊢
        have h2' : T < cp + 2 := h2
        rcases (show T = cp ∨ T = cp + 1 by omega) with hT | hT
        · subst hT
          simp only [stepCancel_true T T (Nat.le_refl T), if_true]
          refine ⟨?_, ?_, ?_⟩ <;> trivial
        · subst hT
          simp only [stepCancel_false (cp + 1) cp (by omega),
            stepCancel_true (cp + 1) (cp + 1) (Nat.le_refl _),
            Bool.false_eq_true, if_false, if_true]
          refine ⟨?_, ?_, ?_⟩ <;> trivial
      · rcases wb with ⟨wavList, b⟩
        simp only [hseg] at h2 ⊢
        have h2' : T < (transcribeSegments cfg neverCancel wavList
            w.completions (cp + 4)).cpNext := h2
        rcases (show T = cp ∨ T = cp + 1 ∨ T = cp + 2 ∨ T = cp + 3 ∨ cp + 4 ≤ T by omega)
          with hT | hT | hT | hT | hT
        · subst hT
          simp only [stepCancel_true T T (Nat.le_refl T), if_true]
          refine ⟨?_, ?_, ?_⟩ <;> trivial
        · subst hT
          simp only [stepCancel_false (cp + 1) cp (by omega),
            stepCancel_true (cp + 1) (cp + 1) (Nat.le_refl _),
            Bool.false_eq_true, if_false, if_true]
          refine ⟨?_, ?_, ?_⟩ <;> trivial
        · subst hT
          simp only [stepCancel_false (cp + 2) cp (by omega),
            stepCancel_false (cp + 2) (cp + 1) (by omega),
            stepCancel_true (cp + 2) (cp + 2) (Nat.le_refl _),
            Bool.false_eq_true, if_false, if_true]
          refine ⟨?_, ?_, ?_⟩ <;> trivial
        · subst hT
          simp only [stepCancel_false (cp + 3) cp (by omega),
            stepCancel_false (cp + 3) (cp + 1) (by omega),
            stepCancel_false (cp + 3) (cp + 2) (by omega),
            stepCancel_true (cp + 3) (cp + 3) (Nat.le_refl _),
            Bool.false_eq_true, if_false, if_true]
          refine ⟨?_, ?_, ?_⟩ <;> trivial
        · simp only [stepCancel_false T cp (by omega), stepCancel_false T (cp + 1) (by omega),
            stepCancel_false T (cp + 2) (by omega), stepCancel_false T (cp + 3) (by omega),
            Bool.false_eq_true, if_false]
          rw [transcribeSegments_cancelled cfg wavList w.completions (cp + 4) T hT h2']
          refine ⟨?_, ?_, ?_⟩ <;> trivial

theorem batchGo_append (cfg : Cfg) (cancel : Nat → Bool) (xs ys : List FileInput)
    (acc : BatchAcc) :
    batchGo cfg cancel (xs ++ ys) acc = batchGo cfg cancel ys (batchGo cfg cancel xs acc) := by
  induction xs generalizing acc with
  | nil => rfl
  | cons f rest ih => exact ih (batchStep cfg cancel acc f)

theorem batchStep_stopped (cfg : Cfg) (cancel : Nat → Bool) (acc : BatchAcc)
    (f : FileInput) (hstop : acc.stopped = true) :
    batchStep cfg cancel acc f = acc := by
  unfold batchStep
  rw [if_pos hstop]

theorem batchGo_stopped (cfg : Cfg) (cancel : Nat → Bool) (xs : List FileInput)
    (acc : BatchAcc) (hstop : acc.stopped = true) :
    batchGo cfg cancel xs acc = acc := by
  induction xs with
  | nil => rfl
  | cons f rest ih =>
    rw [show batchGo cfg cancel (f :: rest) acc
        = batchGo cfg cancel rest (batchStep cfg cancel acc f) from rfl,
      batchStep_stopped cfg cancel acc f hstop]
    exact ih

theorem batchStep_never (cfg : Cfg) (acc : BatchAcc) (f : FileInput)
    (hstop : acc.stopped = false) :
    (batchStep cfg neverCancel acc f).stopped = false
    ∧ (batchStep cfg neverCancel acc f).nextIdx = acc.nextIdx + 1
    ∧ (batchStep cfg neverCancel acc f).cp
        = (processSingleFile cfg neverCancel (acc.cp + 1) f.2).cpNext := by
  unfold batchStep
  rw [if_neg (by rw [hstop]; exact Bool.false_ne_true),
      if_neg (show ¬neverCancel acc.cp = true by simp [neverCancel])]
  rcases hp : (processSingleFile cfg neverCancel (acc.cp + 1) f.2).result with e | sres <;>
    simp only [hp] <;>
    refine ⟨?_, ?_, ?_⟩ <;>
    first
      | exact hstop
      | trivial

theorem batchGo_never (cfg : Cfg) (xs : List FileInput) (acc : BatchAcc)
    (hstop : acc.stopped = false) :
    (batchGo cfg neverCancel xs acc).stopped = false
    ∧ (batchGo cfg neverCancel xs acc).nextIdx = acc.nextIdx + xs.length
    ∧ acc.cp ≤ (batchGo cfg neverCancel xs acc).cp := by
  induction xs generalizing acc with
  | nil => exact ⟨hstop, rfl, Nat.le_refl _⟩
  | cons f rest ih =>
    obtain ⟨hs1, hs2, hs3⟩ := batchStep_never cfg acc f hstop
    obtain ⟨ih1, ih2, ih3⟩ := ih (batchStep cfg neverCancel acc f) hs1
    have hmono := ps_cp_mono cfg neverCancel (acc.cp + 1) f.2
    refine ⟨ih1, ?_, ?_⟩
    · rw [show batchGo cfg neverCancel (f :: rest) acc
          = batchGo cfg neverCancel rest (batchStep cfg neverCancel acc f) from rfl,
        ih2, hs2, List.length_cons]
      omega
    · rw [show batchGo cfg neverCancel (f :: rest) acc
          = batchGo cfg neverCancel rest (batchStep cfg neverCancel acc f) from rfl]
      omega

theorem batchGo_agree (cfg : Cfg) (xs : List FileInput) (acc : BatchAcc) (T : Nat)
    (hstop : acc.stopped = false)
    (h : (batchGo cfg neverCancel xs acc).cp ≤ T) :
    batchGo cfg (stepCancel T) xs acc = batchGo cfg neverCancel xs acc := by
  induction xs generalizing acc with
  | nil => rfl
  | cons f rest ih =>
    obtain ⟨hs1, _, hs3⟩ := batchStep_never cfg acc f hstop
    have hmono := ps_cp_mono cfg neverCancel (acc.cp + 1) f.2
    have hrest := (batchGo_never cfg rest (batchStep cfg neverCancel acc f) hs1).2.2
    have h' : (batchGo cfg neverCancel rest (batchStep cfg neverCancel acc f)).cp ≤ T := h
    have hcpT : acc.cp < T := by omega
    have hpsT : (processSingleFile cfg neverCancel (acc.cp + 1) f.2).cpNext ≤ T := by omega
    have hstepEq : batchStep cfg (stepCancel T) acc f = batchStep cfg neverCancel acc f := by
      unfold batchStep
      rw [if_neg (by rw [hstop]; exact Bool.false_ne_true),
          if_neg (show ¬stepCancel T acc.cp = true by
            rw [stepCancel_false T acc.cp hcpT]; exact Bool.false_ne_true),
          if_neg (show ¬neverCancel acc.cp = true by simp [neverCancel]),
          ps_agree cfg (acc.cp + 1) f.2 T hpsT,
          if_neg (by rw [hstop]; exact Bool.false_ne_true)]
    calc batchGo cfg (stepCancel T) (f :: rest) acc
        = batchGo cfg (stepCancel T) rest (batchStep cfg (stepCancel T) acc f) := rfl
      _ = batchGo cfg (stepCancel T) rest (batchStep cfg neverCancel acc f) := by
            rw [hstepEq]
      _ = batchGo cfg neverCancel rest (batchStep cfg neverCancel acc f) := ih _ hs1 h'
      _ = batchGo cfg neverCancel (f :: rest) acc := rfl

theorem batchGo_break (cfg : Cfg) (cancel : Nat → Bool) (ys : List FileInput)
    (acc : BatchAcc) (hcan : cancel acc.cp = true) :
    (batchGo cfg cancel ys acc).records = acc.records
    ∧ (batchGo cfg cancel ys acc).started = acc.started := by
  cases ys with
  | nil => exact ⟨rfl, rfl⟩
  | cons f rest =>
    by_cases hstop : acc.stopped = true
    · rw [show batchGo cfg cancel (f :: rest) acc
          = batchGo cfg cancel rest (batchStep cfg cancel acc f) from rfl,
        batchStep_stopped cfg cancel acc f hstop,
        batchGo_stopped cfg cancel rest acc hstop]
      exact ⟨rfl, rfl⟩
    · have hstop' : acc.stopped = false := by
        revert hstop; cases acc.stopped <;> simp
      have hstep : batchStep cfg cancel acc f
          = { acc with stopped := true, cp := acc.cp + 1 } := by
        unfold batchStep
        rw [if_neg (by rw [hstop']; exact Bool.false_ne_true), if_pos hcan]
      rw [show batchGo cfg cancel (f :: rest) acc
          = batchGo cfg cancel rest (batchStep cfg cancel acc f) from rfl,
        hstep, batchGo_stopped cfg cancel rest _ rfl]
      exact ⟨rfl, rfl⟩

/-- Invariant of the batch loop: records and file_started events carry exactly the
file indices 0, 1, ..., nextIdx-1 in order. -/
def BatchInv (acc : BatchAcc) : Prop :=
  acc.records.map FileRecord.fileIdx = List.range acc.nextIdx
  ∧ acc.started.map Prod.fst = List.range acc.nextIdx

theorem batchStep_inv (cfg : Cfg) (cancel : Nat → Bool) (acc : BatchAcc) (f : FileInput)
    (h : BatchInv acc) : BatchInv (batchStep cfg cancel acc f) := by
  unfold BatchInv at h ⊢
  unfold batchStep
  split
  · exact h
  split
  · exact h
  rcases hp : (processSingleFile cfg cancel (acc.cp + 1) f.2).result with e | sres <;>
    simp [hp, List.map_append, h.1, h.2, List.range_succ]

theorem batchGo_inv (cfg : Cfg) (cancel : Nat → Bool) (xs : List FileInput)
    (acc : BatchAcc) (h : BatchInv acc) : BatchInv (batchGo cfg cancel xs acc) := by
  induction xs generalizing acc with
  | nil => exact h
  | cons f rest ih => exact ih _ (batchStep_inv cfg cancel acc f h)

/-- C2 (amended): if the cancellation token (a step schedule, set at poll T and never
reset) is first observed while file k of the batch is being processed, then file k is
reported through the generic per-file error path with the message "Cancelled" (its
record has empty text/language/segments), no file with index greater than k is ever
started, and batch_finished reports ONLY files 0..k — the never-started files are
omitted from the list entirely, not represented as skipped. -/
theorem c2_cancellation_amended (cfg : Cfg) (files : List FileInput) (k T : Nat)
    (hk : k < files.length)
    (h1 : (batchGo cfg neverCancel (files.take k) batchInit).cp < T)
    (h2 : T < (batchGo cfg neverCancel (files.take (k + 1)) batchInit).cp) :
    (batchRun cfg (stepCancel T) files).records
      = (batchGo cfg neverCancel (files.take k) batchInit).records
        ++ [{ fileIdx := k, inputFile := (files[k]).1, fullText := "", language := ""
              segments := [], error := some ("Cancelled") }]
    ∧ (batchRun cfg (stepCancel T) files).started
      = (batchGo cfg neverCancel (files.take k) batchInit).started ++ [(k, (files[k]).1)]
    ∧ (batchRun cfg (stepCancel T) files).records.map FileRecord.fileIdx
      = List.range (k + 1)
    ∧ (batchRun cfg (stepCancel T) files).started.map Prod.fst = List.range (k + 1)
    ∧ (batchRun cfg (stepCancel T) files).records.length = k + 1 := by
  obtain ⟨hPstop, hPnext, hPcp⟩ := batchGo_never cfg (files.take k) batchInit rfl
  have hPnext' : (batchGo cfg neverCancel (files.take k) batchInit).nextIdx = k := by
    rw [hPnext, List.length_take]
    show 0 + min k files.length = k
    omega
  have hInvP : BatchInv (batchGo cfg neverCancel (files.take k) batchInit) :=
    batchGo_inv cfg neverCancel (files.take k) batchInit ⟨rfl, rfl⟩
  have htk : files.take (k + 1) = files.take k ++ [files[k]] := by
    rw [List.take_succ, List.getElem?_eq_getElem hk]
    rfl
  have h2' : T < (batchStep cfg neverCancel
      (batchGo cfg neverCancel (files.take k) batchInit) files[k]).cp := by
    rw [htk, batchGo_append] at h2
    exact h2
  have hcpEq := (batchStep_never cfg (batchGo cfg neverCancel (files.take k) batchInit)
      files[k] hPstop).2.2
  have hpsU : T < (processSingleFile cfg neverCancel
      ((batchGo cfg neverCancel (files.take k) batchInit).cp + 1) (files[k]).2).cpNext := by
    rw [← hcpEq]
    exact h2'
  have hpcK := ps_cancelled cfg
    ((batchGo cfg neverCancel (files.take k) batchInit).cp + 1) (files[k]).2 T
    (by omega) hpsU
  have hpre : batchGo cfg (stepCancel T) (files.take k) batchInit
      = batchGo cfg neverCancel (files.take k) batchInit :=
    batchGo_agree cfg (files.take k) batchInit T rfl (by omega)
  have hfiles : files = files.take k ++ files[k] :: files.drop (k + 1) := by
    conv_lhs => rw [← List.take_append_drop k files]
    rw [List.drop_eq_getElem_cons hk]
  have hstepK : batchStep cfg (stepCancel T)
      (batchGo cfg neverCancel (files.take k) batchInit) files[k]
      = { batchGo cfg neverCancel (files.take k) batchInit with
          nextIdx := k + 1, cp := T + 1
          started := (batchGo cfg neverCancel (files.take k) batchInit).started
            ++ [(k, (files[k]).1)]
          fileErrors := (batchGo cfg neverCancel (files.take k) batchInit).fileErrors
            ++ [(k, "Cancelled")]
          records := (batchGo cfg neverCancel (files.take k) batchInit).records
            ++ [{ fileIdx := k, inputFile := (files[k]).1, fullText := "", language := ""
                  segments := [], error := some ("Cancelled") }]
          dirs := (batchGo cfg neverCancel (files.take k) batchInit).dirs ++ [false] } := by
    unfold batchStep
    rw [if_neg (by rw [hPstop]; exact Bool.false_ne_true),
        if_neg (show
          ¬stepCancel T (batchGo cfg neverCancel (files.take k) batchInit).cp = true by
          rw [stepCancel_false T _ (by omega)]; exact Bool.false_ne_true)]
    simp [hpcK.1, hpcK.2.1, hpcK.2.2, hPnext', BErr.msg]
  have hcanK : stepCancel T (batchStep cfg (stepCancel T)
      (batchGo cfg neverCancel (files.take k) batchInit) files[k]).cp = true := by
    rw [hstepK]
    exact stepCancel_true T (T + 1) (by omega)
  obtain ⟨hbr, hbs⟩ := batchGo_break cfg (stepCancel T) (files.drop (k + 1))
    (batchStep cfg (stepCancel T) (batchGo cfg neverCancel (files.take k) batchInit)
      files[k]) hcanK
  have hrun : batchRun cfg (stepCancel T) files
      = batchGo cfg (stepCancel T) (files.drop (k + 1))
          (batchStep cfg (stepCancel T)
            (batchGo cfg neverCancel (files.take k) batchInit) files[k]) := by
    unfold batchRun
    conv_lhs => rw [hfiles]
    rw [batchGo_append, hpre]
    rfl
  have hrec : (batchRun cfg (stepCancel T) files).records
      = (batchGo cfg neverCancel (files.take k) batchInit).records
        ++ [{ fileIdx := k, inputFile := (files[k]).1, fullText := "", language := ""
              segments := [], error := some ("Cancelled") }] := by
    rw [hrun, hbr, hstepK]
  have hsta : (batchRun cfg (stepCancel T) files).started
      = (batchGo cfg neverCancel (files.take k) batchInit).started
        ++ [(k, (files[k]).1)] := by
    rw [hrun, hbs, hstepK]
  have hIr := hInvP.1
  have hIs := hInvP.2
  rw [hPnext'] at hIr hIs
  have hlenR : (batchGo cfg neverCancel (files.take k) batchInit).records.length = k := by
    have := congrArg List.length hIr
    simpa using this
  refine ⟨hrec, hsta, ?_, ?_, ?_⟩
  · rw [hrec]
    simp [List.map_append, hIr, List.range_succ]
  · rw [hsta]
    simp [List.map_append, hIs, List.range_succ]
  · rw [hrec]
    simp [hlenR]

theorem c2_cancellation_amended_witness :
    ((0 : Nat) < ([("a", ⟨.ok 100, .ok [], [(0, .ok ("en", "x"))]⟩),
        ("b", ⟨.ok 100, .ok [], [(0, .ok ("en", "x"))]⟩)] : List FileInput).length)
    ∧ ((batchGo ⟨"k", false, 1, false⟩ neverCancel
          (([("a", ⟨.ok 100, .ok [], [(0, .ok ("en", "x"))]⟩),
             ("b", ⟨.ok 100, .ok [], [(0, .ok ("en", "x"))]⟩)] : List FileInput).take 0)
          batchInit).cp < 3)
    ∧ ((3 : Nat) < (batchGo ⟨"k", false, 1, false⟩ neverCancel
          (([("a", ⟨.ok 100, .ok [], [(0, .ok ("en", "x"))]⟩),
             ("b", ⟨.ok 100, .ok [], [(0, .ok ("en", "x"))]⟩)] : List FileInput).take 1)
          batchInit).cp)
    ∧ (batchRun ⟨"k", false, 1, false⟩ (stepCancel 3)
          [("a", ⟨.ok 100, .ok [], [(0, .ok ("en", "x"))]⟩),
           ("b", ⟨.ok 100, .ok [], [(0, .ok ("en", "x"))]⟩)]).records.length = 0 + 1 := by
  have hcp3 : (3 : Nat) < (batchGo ⟨"k", false, 1, false⟩ neverCancel
      (([("a", ⟨.ok 100, .ok [], [(0, .ok ("en", "x"))]⟩),
         ("b", ⟨.ok 100, .ok [], [(0, .ok ("en", "x"))]⟩)] : List FileInput).take 1)
      batchInit).cp := by
    simp +decide [batchGo, batchStep, processSingleFile, transcribeSegments, drainGo,
      batchInit, neverCancel, segStage, duration, Except.map]
  refine ⟨by decide, by decide, hcp3, ?_⟩
  exact (c2_cancellation_amended ⟨"k", false, 1, false⟩
    [("a", ⟨.ok 100, .ok [], [(0, .ok ("en", "x"))]⟩),
     ("b", ⟨.ok 100, .ok [], [(0, .ok ("en", "x"))]⟩)] 0 3
    (by decide) (by decide) hcp3).2.2.2.2

/-- C2 (counterexample): a batch of two files where the token is set during file 0:
batch_finished carries a single record although the batch has two files — the
never-started file 1 is absent from the report, contradicting the claim that every
file of the batch appears (never-started ones as skipped). -/
theorem c2_counterexample :
    (batchRun ⟨"k", false, 1, false⟩ (stepCancel 5)
        [("a", ⟨.ok 100, .ok [], [(0, .ok ("en", "x"))]⟩),
         ("b", ⟨.ok 100, .ok [], [(0, .ok ("en", "x"))]⟩)]).records.length = 1
    ∧ ([("a", (⟨.ok 100, .ok [], [(0, .ok ("en", "x"))]⟩ : FileWorld)),
        ("b", ⟨.ok 100, .ok [], [(0, .ok ("en", "x"))]⟩)] : List FileInput).length = 2
    ∧ (1 : Nat) ≠ 2 := by
  refine ⟨?_, by decide, by decide⟩
  simp +decide [batchRun, batchGo, batchStep, processSingleFile, transcribeSegments,
    drainGo, batchInit, stepCancel, segStage, duration, Except.map]

/-! ## C4 -/

/-- The file_started payloads produced when every file is attempted, numbering from n0. -/
def idxTrail (n0 : Nat) : List FileInput → List (Nat × String)
  | [] => []
  | f :: rest => (n0, f.1) :: idxTrail (n0 + 1) rest

/-- The failure records produced when every file fails its credential check. -/
def authFailTrail (n0 : Nat) : List FileInput → List FileRecord
  | [] => []
  | f :: rest =>
      { fileIdx := n0, inputFile := f.1, fullText := "", language := "", segments := []
        error := some ("No API key provided") } :: authFailTrail (n0 + 1) rest

theorem batchGo_auth_fail (cfg : Cfg) (hkey : cfg.apiKey = "")
    (henv : cfg.envHasKey = false) (files : List FileInput) (acc : BatchAcc)
    (hstop : acc.stopped = false) :
    (batchGo cfg neverCancel files acc).records = acc.records ++ authFailTrail acc.nextIdx files
    ∧ (batchGo cfg neverCancel files acc).started = acc.started ++ idxTrail acc.nextIdx files := by
  induction files generalizing acc with
  | nil => exact ⟨by simp [authFailTrail, batchGo], by simp [idxTrail, batchGo]⟩
  | cons f rest ih =>
    have hstep : batchStep cfg neverCancel acc f
        = { acc with
            nextIdx := acc.nextIdx + 1, cp := acc.cp + 1
            started := acc.started ++ [(acc.nextIdx, f.1)]
            fileErrors := acc.fileErrors ++ [(acc.nextIdx, "No API key provided")]
            records := acc.records ++
              [{ fileIdx := acc.nextIdx, inputFile := f.1, fullText := "", language := ""
                 segments := [], error := some ("No API key provided") }]
            dirs := acc.dirs ++ [false] } := by
      unfold batchStep
      rw [if_neg (by rw [hstop]; exact Bool.false_ne_true),
          if_neg (show ¬neverCancel acc.cp = true by simp [neverCancel])]
      have hauth : processSingleFile cfg neverCancel (acc.cp + 1) f.2
          = { result := .error .auth, dirCreated := false, dirExists := false
              cpNext := acc.cp + 1 } := by
        unfold processSingleFile
        rw [if_pos ⟨hkey, henv⟩]
      simp [hauth, BErr.msg]
    obtain ⟨ihr, ihs⟩ := ih (batchStep cfg neverCancel acc f) (by rw [hstep]; exact hstop)
    constructor
    · rw [show batchGo cfg neverCancel (f :: rest) acc
          = batchGo cfg neverCancel rest (batchStep cfg neverCancel acc f) from rfl,
        ihr, hstep]
      simp [authFailTrail, List.append_assoc]
    · rw [show batchGo cfg neverCancel (f :: rest) acc
          = batchGo cfg neverCancel rest (batchStep cfg neverCancel acc f) from rfl,
        ihs, hstep]
      simp [idxTrail, List.append_assoc]

/-- C4 (amended): the credential check is NOT a single pre-batch check and a failure
does not abort the job. It runs inside _process_single_file for each file, after
file_started has been emitted; with a missing credential every file of the batch is
still started and each one individually fails with "No API key provided", so
batch_finished carries one auth-failure record per file. -/
theorem c4_auth_per_file_amended (cfg : Cfg) (files : List FileInput)
    (hkey : cfg.apiKey = "") (henv : cfg.envHasKey = false) :
    (batchRun cfg neverCancel files).records = authFailTrail 0 files
    ∧ (batchRun cfg neverCancel files).started = idxTrail 0 files
    ∧ (batchRun cfg neverCancel files).started.length = files.length := by
  obtain ⟨hr, hs⟩ := batchGo_auth_fail cfg hkey henv files batchInit rfl
  have hlen : ∀ (n0 : Nat) (l : List FileInput), (idxTrail n0 l).length = l.length := by
    intro n0 l
    induction l generalizing n0 with
    | nil => rfl
    | cons f rest ih => simp [idxTrail, ih]
  refine ⟨?_, ?_, ?_⟩
  · rw [batchRun, hr]
    rfl
  · rw [batchRun, hs]
    rfl
  · rw [batchRun, hs]
    show (([] : List (Nat × String)) ++ idxTrail 0 files).length = files.length
    rw [List.nil_append, hlen]

theorem c4_auth_per_file_amended_witness :
    ((⟨"", false, 1, false⟩ : Cfg).apiKey = "")
    ∧ ((⟨"", false, 1, false⟩ : Cfg).envHasKey = false)
    ∧ (batchRun ⟨"", false, 1, false⟩ neverCancel
        [("a", ⟨.ok 100, .ok [], [(0, .ok ("en", "x"))]⟩),
         ("b", ⟨.ok 100, .ok [], [(0, .ok ("en", "x"))]⟩)]).records
      = authFailTrail 0
          [("a", ⟨.ok 100, .ok [], [(0, .ok ("en", "x"))]⟩),
           ("b", ⟨.ok 100, .ok [], [(0, .ok ("en", "x"))]⟩)] :=
  ⟨rfl, rfl,
   (c4_auth_per_file_amended ⟨"", false, 1, false⟩
     [("a", ⟨.ok 100, .ok [], [(0, .ok ("en", "x"))]⟩),
      ("b", ⟨.ok 100, .ok [], [(0, .ok ("en", "x"))]⟩)] rfl rfl).1⟩

/-- C4 (counterexample): with a missing credential (empty key, no environment
variable), a two-file batch still starts BOTH files — file 1 is started and attempted
after file 0 already failed its credential check — so the failed check neither
happens once before the batch nor aborts the job, and two per-file auth-error records
are reported. -/
theorem c4_counterexample :
    (batchRun ⟨"", false, 1, false⟩ neverCancel
        [("a", ⟨.ok 100, .ok [], [(0, .ok ("en", "x"))]⟩),
         ("b", ⟨.ok 100, .ok [], [(0, .ok ("en", "x"))]⟩)]).started
      = [(0, "a"), (1, "b")]
    ∧ (batchRun ⟨"", false, 1, false⟩ neverCancel
        [("a", ⟨.ok 100, .ok [], [(0, .ok ("en", "x"))]⟩),
         ("b", ⟨.ok 100, .ok [], [(0, .ok ("en", "x"))]⟩)]).records.map FileRecord.error
      = [some ("No API key provided"), some ("No API key provided")]
    ∧ (batchRun ⟨"", false, 1, false⟩ neverCancel
        [("a", ⟨.ok 100, .ok [], [(0, .ok ("en", "x"))]⟩),
         ("b", ⟨.ok 100, .ok [], [(0, .ok ("en", "x"))]⟩)]).started ≠ [] := by
  refine ⟨?_, ?_, ?_⟩ <;>
    simp +decide [batchRun, batchGo, batchStep, processSingleFile, batchInit,
      neverCancel, BErr.msg]
